import Mathlib

/-!
Shallow embedding of the `PureRandom` Stylus contract (`src/lib.rs`).

The contract persists a single `uint256 nonce` field (declared in the
`sol_storage!` block, zero-initialized at deployment by the host storage
model) and exposes three public methods:

* `increment(&mut self)` — reads `nonce` and stores `nonce + 1`;
* `nonce(&self) -> U256` — returns the stored value;
* `generate(&mut self) -> U256` — hashes the 32-byte little-endian
  encoding of the u64 block timestamp with keccak and interprets the
  digest big-endian; it never touches storage.

Machine integers are embedded as `Nat` with explicit bounds.  The keccak
primitive and the host clock are opaque external collaborators and enter
as parameters.  Failure of an invocation is `Option.none`; the host rolls
back an aborted invocation, which `stepCommit` makes explicit.
-/

/-- The modulus of the unsigned 256-bit integer type `U256`. -/
def U256_MOD : Nat := 2 ^ 256

/-- Modelled from the spec: the `+` operator on `U256` used by `increment`
comes from the `alloy_primitives` dependency, whose source is not part of
this repository.  The spec (§4.1, §7) requires checked, wraparound-free
addition: the sum is produced when it fits the 256-bit unsigned range and
the invocation aborts with an overflow failure otherwise. -/
def checkedAdd256 (a b : Nat) : Option Nat :=
  if a + b < U256_MOD then some (a + b) else none

/-- The persistent storage of the contract: `sol_storage! { pub struct
PureRandom { uint256 nonce; } }`.  The field holds a value below
`U256_MOD` in every reachable state. -/
structure PureRandom where
  nonce : Nat
deriving Repr, DecidableEq

/-- A freshly deployed instance: storage slots are zero-initialized at
contract deployment by the host storage model. -/
def deploy : PureRandom := ⟨0⟩

/-- `PureRandom::increment`: read `nonce`, store `nonce + 1`.  `none`
is the aborted (overflowing) invocation. -/
def PureRandom.increment (s : PureRandom) : Option PureRandom :=
  (checkedAdd256 s.nonce 1).map fun n => ⟨n⟩

/-- `PureRandom::nonce`: return the stored value.  The second component
is the storage after the call, making the absence of side effects
explicit. -/
def PureRandom.nonceCall (s : PureRandom) : Nat × PureRandom :=
  (s.nonce, s)

/-- `U256::to_le_bytes::<32>` applied to `U256::from(t)`: the fixed-width
32-byte little-endian encoding, upper bytes zero-padded; byte `i` is
`t / 256 ^ i % 256`. -/
def toLeBytes32 (t : Nat) : List Nat :=
  (List.range 32).map fun i => t / 256 ^ i % 256

/-- `U256::from_be_bytes`: interpret a byte string as a big-endian
unsigned integer. -/
def fromBeBytes (bs : List Nat) : Nat :=
  bs.foldl (fun acc b => acc * 256 + b) 0

/-- `PureRandom::generate`.  `keccak` is the opaque 32-byte hash
primitive `crypto::keccak`; `hostTime` is the host clock value, which
`block::timestamp()` samples as a `u64` (hence `% 2 ^ 64`).  The first
component is the returned value, the second the storage after the call:
the method body never reads or writes `self.nonce`. -/
def PureRandom.generate (keccak : List Nat → List Nat) (hostTime : Nat)
    (s : PureRandom) : Nat × PureRandom :=
  (fromBeBytes (keccak (toLeBytes32 (hostTime % 2 ^ 64))), s)

/-- One public invocation of the contract. -/
inductive Op where
  | increment : Op
  | nonceRead : Op
  | generate : Nat → Op
deriving Repr

/-- The storage produced by one invocation, `none` when it aborts. -/
def step (keccak : List Nat → List Nat) : Op → PureRandom → Option PureRandom
  | Op.increment, s => s.increment
  | Op.nonceRead, s => some (s.nonceCall).2
  | Op.generate t, s => some (s.generate keccak t).2

/-- The committed storage after one invocation: the host rolls back an
aborted invocation, leaving storage unchanged. -/
def stepCommit (keccak : List Nat → List Nat) (op : Op) (s : PureRandom) :
    PureRandom :=
  (step keccak op s).getD s

/-- The committed storage after a sequence of invocations. -/
def run (keccak : List Nat → List Nat) : List Op → PureRandom → PureRandom
  | [], s => s
  | op :: ops, s => run keccak ops (stepCommit keccak op s)

/-- `n` successive `increment` invocations, aborting as soon as one
aborts. -/
def incrementN : Nat → PureRandom → Option PureRandom
  | 0, s => some s
  | n + 1, s => (incrementN n s).bind PureRandom.increment

theorem increment_eq_some (s s' : PureRandom) :
    s.increment = some s' ↔ s.nonce + 1 < U256_MOD ∧ s' = ⟨s.nonce + 1⟩ := by
  unfold PureRandom.increment checkedAdd256
  by_cases h : s.nonce + 1 < U256_MOD <;> simp [h, eq_comm]

theorem nonce_le_stepCommit (keccak : List Nat → List Nat) (op : Op)
    (s : PureRandom) : s.nonce ≤ (stepCommit keccak op s).nonce := by
  cases op with
  | increment =>
    unfold stepCommit step PureRandom.increment checkedAdd256
    by_cases h : s.nonce + 1 < U256_MOD <;> simp [h]
  | nonceRead => simp [stepCommit, step, PureRandom.nonceCall]
  | generate t => simp [stepCommit, step, PureRandom.generate]

theorem nonce_le_run (keccak : List Nat → List Nat) (ops : List Op)
    (s : PureRandom) : s.nonce ≤ (run keccak ops s).nonce := by
  induction ops generalizing s with
  | nil => simp [run]
  | cons op ops ih =>
    exact le_trans (nonce_le_stepCommit keccak op s) (ih _)

/-- C1: when `nonce` is `2 ^ 256 - 1`, `increment` aborts with an
overflow failure (checked addition), and the committed storage still
holds `2 ^ 256 - 1`. -/
theorem increment_overflow_aborts (keccak : List Nat → List Nat)
    (s : PureRandom) (h : s.nonce = 2 ^ 256 - 1) :
    s.increment = none ∧ stepCommit keccak Op.increment s = s ∧
      (stepCommit keccak Op.increment s).nonce = 2 ^ 256 - 1 := by
  have hnone : s.increment = none := by
    unfold PureRandom.increment checkedAdd256
    have : ¬ s.nonce + 1 < U256_MOD := by
      simp [h, U256_MOD]
    simp [this]
  refine ⟨hnone, ?_, ?_⟩ <;> simp [stepCommit, step, hnone, h]

theorem increment_overflow_aborts_witness :
    (⟨2 ^ 256 - 1⟩ : PureRandom).nonce = 2 ^ 256 - 1 ∧
      (⟨2 ^ 256 - 1⟩ : PureRandom).increment = none ∧
      stepCommit id Op.increment ⟨2 ^ 256 - 1⟩ = ⟨2 ^ 256 - 1⟩ ∧
      (stepCommit id Op.increment ⟨2 ^ 256 - 1⟩).nonce = 2 ^ 256 - 1 := by
  refine ⟨rfl, ?_⟩
  have h := increment_overflow_aborts id ⟨2 ^ 256 - 1⟩ rfl
  exact ⟨h.1, h.2.1, h.2.2⟩

/-- C3: `n` successive `increment` invocations from a freshly deployed
instance succeed (no overflow occurs while `n < 2 ^ 256`) and leave a
state in which `nonce()` returns `n`. -/
theorem incrementN_deploy (n : Nat) (h : n < 2 ^ 256) :
    incrementN n deploy = some ⟨n⟩ ∧
      (PureRandom.nonceCall ⟨n⟩).1 = n := by
  refine ⟨?_, rfl⟩
  induction n with
  | zero => rfl
  | succ k ih =>
    have hk : k < 2 ^ 256 := Nat.lt_of_succ_lt h
    have hrun : incrementN k deploy = some ⟨k⟩ := ih hk
    have hstep : (⟨k⟩ : PureRandom).increment = some ⟨k + 1⟩ := by
      rw [increment_eq_some]
      exact ⟨h, rfl⟩
    simp [incrementN, hrun, hstep]

theorem incrementN_deploy_witness :
    5 < 2 ^ 256 ∧
      (incrementN 5 deploy = some ⟨5⟩ ∧ (PureRandom.nonceCall ⟨5⟩).1 = 5) :=
  ⟨by decide, incrementN_deploy 5 (by decide)⟩

/-- C4: `nonce` is monotonically non-decreasing across every sequence of
invocations; a completed `increment` raises it by exactly 1, one
committed invocation never changes it by more than 1, and the `nonce`
and `generate` invocations leave the storage unchanged. -/
theorem nonce_monotone (keccak : List Nat → List Nat) (ops : List Op)
    (op : Op) (s s' : PureRandom) (h : step keccak op s = some s') :
    s.nonce ≤ (run keccak ops s).nonce ∧
      s.nonce ≤ s'.nonce ∧ s'.nonce ≤ s.nonce + 1 ∧
      (op = Op.increment → s'.nonce = s.nonce + 1) ∧
      (op = Op.nonceRead → s' = s) ∧
      (∀ t, op = Op.generate t → s' = s) := by
  refine ⟨nonce_le_run keccak ops s, ?_⟩
  cases op with
  | increment =>
    have h' := (increment_eq_some s s').1 h
    simp [h'.2, Nat.le_succ]
  | nonceRead =>
    simp [step, PureRandom.nonceCall] at h
    simp [← h, Nat.le_succ]
  | generate t =>
    simp [step, PureRandom.generate] at h
    simp [← h, Nat.le_succ]

theorem nonce_monotone_witness :
    step id Op.increment deploy = some ⟨1⟩ ∧
      (deploy.nonce ≤ (run id [Op.increment, Op.nonceRead] deploy).nonce ∧
        deploy.nonce ≤ (⟨1⟩ : PureRandom).nonce ∧
        (⟨1⟩ : PureRandom).nonce ≤ deploy.nonce + 1 ∧
        (Op.increment = Op.increment →
          (⟨1⟩ : PureRandom).nonce = deploy.nonce + 1) ∧
        (Op.increment = Op.nonceRead → (⟨1⟩ : PureRandom) = deploy) ∧
        (∀ t, Op.increment = Op.generate t → (⟨1⟩ : PureRandom) = deploy)) :=
  ⟨by decide,
    nonce_monotone id [Op.increment, Op.nonceRead] Op.increment deploy ⟨1⟩
      (by decide)⟩

/-- C7: on a freshly deployed instance the `nonce` field is
zero-initialized, so `nonce()` returns 0 before any other operation. -/
theorem deploy_nonce_zero :
    deploy.nonce = 0 ∧ (deploy.nonceCall).1 = 0 :=
  ⟨rfl, rfl⟩

/-- C8: `nonce()` returns the stored value, never mutates the storage,
never aborts, and repeated calls without an intervening `increment`
return the same value. -/
theorem nonceCall_pure_idempotent (keccak : List Nat → List Nat)
    (s : PureRandom) :
    (s.nonceCall).1 = s.nonce ∧ (s.nonceCall).2 = s ∧
      step keccak Op.nonceRead s ≠ none ∧
      ((s.nonceCall).2.nonceCall).1 = (s.nonceCall).1 := by
  refine ⟨rfl, rfl, ?_, rfl⟩
  simp [step, PureRandom.nonceCall]

/-- C10: `increment` is injective on states: two completed `increment`
invocations from pre-states with distinct `nonce` values reach
post-states with distinct `nonce` values. -/
theorem increment_injective (s₁ s₂ s₁' s₂' : PureRandom)
    (h₁ : s₁.increment = some s₁') (h₂ : s₂.increment = some s₂')
    (hne : s₁.nonce ≠ s₂.nonce) : s₁'.nonce ≠ s₂'.nonce := by
  have e₁ := (increment_eq_some s₁ s₁').1 h₁
  have e₂ := (increment_eq_some s₂ s₂').1 h₂
  simp [e₁.2, e₂.2]
  exact fun h => hne h

theorem toLeBytes32_getD (t i : Nat) (h : i < 32) :
    (toLeBytes32 t).getD i 0 = t / 256 ^ i % 256 := by
  simp [toLeBytes32, List.getD, List.getElem?_map, List.getElem?_range, h]

theorem byte_high_zero (t i : Nat) (ht : t < 2 ^ 64) (h8 : 8 ≤ i) :
    t / 256 ^ i % 256 = 0 := by
  have h256 : (2 : Nat) ^ 64 ≤ 256 ^ i := by
    calc (2 : Nat) ^ 64 = 256 ^ 8 := by norm_num
    _ ≤ 256 ^ i := Nat.pow_le_pow_right (by norm_num) h8
  simp [Nat.div_eq_of_lt (lt_of_lt_of_le ht h256)]

/-- C2: `generate()` at block timestamp `T` returns exactly the
big-endian interpretation of the keccak digest of the fixed-width
32-byte little-endian (zero-padded) encoding of `T`. -/
theorem generate_algorithm (keccak : List Nat → List Nat) (T : Nat)
    (s : PureRandom) (hT : T < 2 ^ 64) :
    (s.generate keccak T).1 = fromBeBytes (keccak (toLeBytes32 T)) ∧
      (toLeBytes32 T).length = 32 ∧
      (∀ i, i < 32 → (toLeBytes32 T).getD i 0 = T / 256 ^ i % 256) := by
  refine ⟨?_, by simp [toLeBytes32], fun i hi => toLeBytes32_getD T i hi⟩
  have h1 : (s.generate keccak T).1 =
      fromBeBytes (keccak (toLeBytes32 (T % 2 ^ 64))) := rfl
  rw [h1, Nat.mod_eq_of_lt hT]

theorem generate_algorithm_witness :
    1700000000 < 2 ^ 64 ∧
      ((deploy.generate id 1700000000).1 =
          fromBeBytes (id (toLeBytes32 1700000000)) ∧
        (toLeBytes32 1700000000).length = 32 ∧
        (∀ i, i < 32 →
          (toLeBytes32 1700000000).getD i 0 = 1700000000 / 256 ^ i % 256)) :=
  ⟨by decide, generate_algorithm id 1700000000 deploy (by decide)⟩

/-- C5: `generate()` performs no mutation: for every pre-state and
every timestamp the storage after the call, committed by the host, is
the pre-state, `nonce` included. -/
theorem generate_no_mutation (keccak : List Nat → List Nat) (t : Nat)
    (s : PureRandom) :
    (s.generate keccak t).2 = s ∧ (s.generate keccak t).2.nonce = s.nonce ∧
      stepCommit keccak (Op.generate t) s = s :=
  ⟨rfl, rfl, rfl⟩

/-- C6: `generate()` is a deterministic function of the timestamp
alone: on any two states observing the same timestamp it returns the
same 256-bit value, whatever the stored `nonce` values. -/
theorem generate_deterministic (keccak : List Nat → List Nat) (t : Nat)
    (s₁ s₂ : PureRandom) :
    (s₁.generate keccak t).1 = (s₂.generate keccak t).1 :=
  rfl

/-- C9: the timestamp is sampled as a 64-bit unsigned integer, so bytes
8 through 31 of the 32-byte little-endian hash input are always zero,
and any two host timestamps equal modulo `2 ^ 64` produce identical
outputs. -/
theorem generate_low64_only (keccak : List Nat → List Nat)
    (t t₁ t₂ : Nat) (s₁ s₂ : PureRandom)
    (hmod : t₁ % 2 ^ 64 = t₂ % 2 ^ 64) :
    (∀ i, 8 ≤ i → i < 32 →
        (toLeBytes32 (t % 2 ^ 64)).getD i 0 = 0) ∧
      (s₁.generate keccak t₁).1 = (s₂.generate keccak t₂).1 := by
  constructor
  · intro i h8 h32
    rw [toLeBytes32_getD _ i h32]
    exact byte_high_zero _ i (Nat.mod_lt t (by norm_num)) h8
  · have h1 : (s₁.generate keccak t₁).1 =
        fromBeBytes (keccak (toLeBytes32 (t₁ % 2 ^ 64))) := rfl
    have h2 : (s₂.generate keccak t₂).1 =
        fromBeBytes (keccak (toLeBytes32 (t₂ % 2 ^ 64))) := rfl
    rw [h1, h2, hmod]

theorem generate_low64_only_witness :
    3 % 2 ^ 64 = (2 ^ 64 + 3) % 2 ^ 64 ∧
      ((∀ i, 8 ≤ i → i < 32 →
          (toLeBytes32 (12 % 2 ^ 64)).getD i 0 = 0) ∧
        (deploy.generate id 3).1 =
          ((⟨7⟩ : PureRandom).generate id (2 ^ 64 + 3)).1) :=
  ⟨by decide,
    generate_low64_only id 12 3 (2 ^ 64 + 3) deploy ⟨7⟩ (by decide)⟩

theorem increment_injective_witness :
    (deploy.increment = some ⟨1⟩ ∧
        (⟨1⟩ : PureRandom).increment = some ⟨2⟩ ∧
        deploy.nonce ≠ (⟨1⟩ : PureRandom).nonce) ∧
      (⟨1⟩ : PureRandom).nonce ≠ (⟨2⟩ : PureRandom).nonce :=
  ⟨⟨by decide, by decide, by decide⟩,
    increment_injective deploy ⟨1⟩ ⟨1⟩ ⟨2⟩ (by decide) (by decide)
      (by decide)⟩
